import Mathlib

/-!
Verification of the catalog-matching engine, the image-compression loop and
the extraction-pipeline control flow of the url_extractor_api repository.

Embedding conventions:
* Python floats are modelled as real numbers (`ℝ`); the size arithmetic of
  the compression loop, which only compares rationals, is modelled over `ℚ`
  so that it stays executable.
* Python strings are modelled as `String`, except in the code-fence
  stripping logic where `List Char` is used so that `str.split` can be
  modelled by structural recursion.
* External collaborators (the OpenAI embedding call, the image codec, the
  network stages of the route) are injected as function parameters; the
  number of embedding-provider invocations performed by a matching call is
  returned alongside its result (the source has exactly one call site,
  executed unconditionally).
-/

namespace UrlExtractor

/-- Dot product of two float vectors, as computed by numpy on two rows
(`similarities = cosine_similarity([input_embedding], df_embeddings)[0]`
reduces to normalised dot products). Zipping truncates at the shorter
vector, matching elementwise products. -/
def dot (a b : List ℝ) : ℝ := (List.zipWith (fun x y => x * y) a b).sum

theorem dot_self_nonneg (a : List ℝ) : 0 ≤ dot a a := by
  induction a with
  | nil => simp [dot]
  | cons x xs ih =>
    simp only [dot, List.zipWith_cons_cons, List.sum_cons] at *
    nlinarith [sq_nonneg x]

theorem dot_cons (x y : ℝ) (xs ys : List ℝ) :
    dot (x :: xs) (y :: ys) = x * y + dot xs ys := by
  simp [dot]

theorem dot_comm (a b : List ℝ) : dot a b = dot b a := by
  induction a generalizing b with
  | nil => cases b <;> simp [dot]
  | cons x xs ih =>
    cases b with
    | nil => simp [dot]
    | cons y ys =>
      simp only [dot, List.zipWith_cons_cons, List.sum_cons] at *
      rw [mul_comm]
      exact congrArg _ (ih ys)

/-- Cauchy–Schwarz for list dot products (truncation included). -/
theorem dot_sq_le (a b : List ℝ) : (dot a b) ^ 2 ≤ dot a a * dot b b := by
  induction a generalizing b with
  | nil => simp [dot]
  | cons x xs ih =>
    cases b with
    | nil =>
      have := dot_self_nonneg (x :: xs)
      simp only [dot, List.zipWith_nil_right, List.sum_nil] at *
      nlinarith
    | cons y ys =>
      have hA := dot_self_nonneg xs
      have hB := dot_self_nonneg ys
      have hIH := ih ys
      rw [dot_cons, dot_cons, dot_cons]
      rcases lt_or_eq_of_le hA with hApos | hAzero
      · nlinarith [sq_nonneg (x * dot xs ys - y * dot xs xs),
          mul_nonneg (add_nonneg (sq_nonneg x) hA) (sub_nonneg.mpr hIH), hApos, hB]
      · have hd : dot xs ys = 0 := by nlinarith [sq_nonneg (dot xs ys)]
        rw [hd, ← hAzero]
        nlinarith [mul_nonneg (sq_nonneg x) hB]

theorem dot_zero_of_self_zero {a : List ℝ} (h : dot a a = 0) (b : List ℝ) :
    dot a b = 0 := by
  have h2 := dot_sq_le a b
  rw [h, zero_mul] at h2
  have := sq_nonneg (dot a b)
  nlinarith

/-- L2 norm of a vector, as `sklearn.preprocessing.normalize` computes it. -/
noncomputable def l2norm (a : List ℝ) : ℝ := Real.sqrt (dot a a)

theorem l2norm_nonneg (a : List ℝ) : 0 ≤ l2norm a := Real.sqrt_nonneg _

theorem l2norm_eq_zero_iff (a : List ℝ) : l2norm a = 0 ↔ dot a a = 0 := by
  unfold l2norm
  rw [Real.sqrt_eq_zero (dot_self_nonneg a)]

/-- The divisor used by `sklearn.preprocessing.normalize`: the L2 norm,
with zero norms replaced by 1. -/
noncomputable def skdenom (a : List ℝ) : ℝ :=
  if l2norm a = 0 then 1 else l2norm a

/-- Model of `sklearn.preprocessing.normalize` on one row: divide by the L2 norm,
with zero norms replaced by 1 (so a zero vector is left unchanged). -/
noncomputable def sknormalize (a : List ℝ) : List ℝ :=
  a.map fun x => x / skdenom a

/-- Model of `sklearn.metrics.pairwise.cosine_similarity` on a single pair of rows:
normalise each row, then take the dot product. -/
noncomputable def cosine_sim (a b : List ℝ) : ℝ := dot (sknormalize a) (sknormalize b)

/-- The spec's cosine-similarity definition, written from its words:
`dot(a,b) / (||a|| * ||b||)`, and 0 whenever either vector has zero norm. -/
noncomputable def cosineSimSpec (a b : List ℝ) : ℝ :=
  if l2norm a = 0 ∨ l2norm b = 0 then 0 else dot a b / (l2norm a * l2norm b)

theorem dot_map_div (a b : List ℝ) (na nb : ℝ) :
    dot (a.map fun x => x / na) (b.map fun x => x / nb) = dot a b / (na * nb) := by
  induction a generalizing b with
  | nil => simp [dot]
  | cons x xs ih =>
    cases b with
    | nil => simp [dot]
    | cons y ys =>
      simp only [dot, List.map_cons, List.zipWith_cons_cons, List.sum_cons] at *
      rw [ih ys, add_div]
      congr 1
      rw [div_mul_div_comm]

theorem cosine_sim_eq_div (a b : List ℝ) :
    cosine_sim a b = dot a b / (skdenom a * skdenom b) := by
  unfold cosine_sim sknormalize
  exact dot_map_div a b (skdenom a) (skdenom b)

theorem cosine_sim_eq_spec (a b : List ℝ) : cosine_sim a b = cosineSimSpec a b := by
  rw [cosine_sim_eq_div]
  unfold cosineSimSpec skdenom
  by_cases ha : l2norm a = 0
  · have hza : dot a a = 0 := (l2norm_eq_zero_iff a).mp ha
    rw [if_pos (Or.inl ha), if_pos ha, dot_zero_of_self_zero hza, zero_div]
  · by_cases hb : l2norm b = 0
    · have hzb : dot b b = 0 := (l2norm_eq_zero_iff b).mp hb
      rw [if_pos (Or.inr hb), if_neg ha, if_pos hb, dot_comm,
        dot_zero_of_self_zero hzb, zero_div]
    · rw [if_neg (by tauto : ¬ (l2norm a = 0 ∨ l2norm b = 0)), if_neg ha, if_neg hb]

theorem abs_dot_le_norms (a b : List ℝ) : |dot a b| ≤ l2norm a * l2norm b := by
  have h := dot_sq_le a b
  have : l2norm a * l2norm b = Real.sqrt (dot a a * dot b b) := by
    unfold l2norm
    rw [Real.sqrt_mul (dot_self_nonneg a)]
  rw [this]
  have habs : |dot a b| = Real.sqrt ((dot a b) ^ 2) := by
    rw [Real.sqrt_sq_eq_abs]
  rw [habs]
  exact Real.sqrt_le_sqrt h

theorem cosine_sim_bounds (a b : List ℝ) :
    -1 ≤ cosine_sim a b ∧ cosine_sim a b ≤ 1 := by
  rw [cosine_sim_eq_spec]
  unfold cosineSimSpec
  by_cases h : l2norm a = 0 ∨ l2norm b = 0
  · rw [if_pos h]; norm_num
  · rw [if_neg h]
    push_neg at h
    have hna : 0 < l2norm a := lt_of_le_of_ne (l2norm_nonneg a) (Ne.symm h.1)
    have hnb : 0 < l2norm b := lt_of_le_of_ne (l2norm_nonneg b) (Ne.symm h.2)
    have hpos : 0 < l2norm a * l2norm b := mul_pos hna hnb
    have habs := abs_dot_le_norms a b
    constructor
    · rw [le_div_iff₀ hpos]
      have := neg_abs_le (dot a b)
      nlinarith
    · rw [div_le_one hpos]
      have := le_abs_self (dot a b)
      linarith

/-! ### np.argmax and the nearest-neighbour scan -/

open Classical in
/-- Model of `np.argmax` on a list of scores: the index of the first occurrence of
the maximum value (numpy documents exactly this tie-break). -/
noncomputable def argmaxIdx : List ℝ → Nat
  | [] => 0
  | x :: xs => if ∀ y ∈ xs, y ≤ x then 0 else argmaxIdx xs + 1

theorem argmaxIdx_lt_length (l : List ℝ) (hl : l ≠ []) :
    argmaxIdx l < l.length := by
  induction l with
  | nil => exact absurd rfl hl
  | cons x xs ih =>
    by_cases hc : ∀ y ∈ xs, y ≤ x
    · rw [argmaxIdx, if_pos hc]
      simp
    · rw [argmaxIdx, if_neg hc]
      have hxs : xs ≠ [] := by
        intro he
        exact hc (by simp [he])
      have := ih hxs
      simp only [List.length_cons]
      omega

theorem getD_mem {α : Type _} {l : List α} {j : Nat} (hj : j < l.length) (d : α) :
    l.getD j d ∈ l := by
  rw [List.getD_eq_getElem l d hj]
  exact List.getElem_mem hj

theorem getD_map {α β : Type _} (f : α → β) (l : List α) {j : Nat}
    (hj : j < l.length) (d : β) (d' : α) : (l.map f).getD j d = f (l.getD j d') := by
  rw [List.getD_eq_getElem _ _ (by simpa using hj), List.getD_eq_getElem _ _ hj,
    List.getElem_map]

theorem argmaxIdx_is_max (l : List ℝ) (hl : l ≠ []) :
    ∀ j, j < l.length → l.getD j 0 ≤ l.getD (argmaxIdx l) 0 := by
  induction l with
  | nil => exact absurd rfl hl
  | cons x xs ih =>
    intro j hj
    by_cases hc : ∀ y ∈ xs, y ≤ x
    · rw [argmaxIdx, if_pos hc]
      match j with
      | 0 => simp
      | j + 1 =>
        simp only [List.getD_cons_succ, List.getD_cons_zero]
        have hj' : j < xs.length := by simpa using hj
        exact hc _ (getD_mem hj' 0)
    · rw [argmaxIdx, if_neg hc]
      have hxs : xs ≠ [] := by
        intro he
        exact hc (by simp [he])
      push_neg at hc
      obtain ⟨y, hy, hxy⟩ := hc
      obtain ⟨k, hk, hky⟩ := List.mem_iff_getElem.mp hy
      have hyk : xs.getD k 0 = y := by rw [List.getD_eq_getElem xs 0 hk, hky]
      have hymax : y ≤ xs.getD (argmaxIdx xs) 0 := by
        rw [← hyk]
        exact ih hxs k hk
      match j with
      | 0 =>
        simp only [List.getD_cons_succ, List.getD_cons_zero]
        linarith
      | j + 1 =>
        simp only [List.getD_cons_succ]
        exact ih hxs j (by simpa using hj)

theorem argmaxIdx_first (l : List ℝ) (hl : l ≠ []) :
    ∀ j, j < argmaxIdx l → l.getD j 0 < l.getD (argmaxIdx l) 0 := by
  induction l with
  | nil => exact absurd rfl hl
  | cons x xs ih =>
    intro j hj
    by_cases hc : ∀ y ∈ xs, y ≤ x
    · rw [argmaxIdx, if_pos hc] at hj
      omega
    · rw [argmaxIdx, if_neg hc] at hj ⊢
      have hxs : xs ≠ [] := by
        intro he
        exact hc (by simp [he])
      have hlt : x < xs.getD (argmaxIdx xs) 0 := by
        push_neg at hc
        obtain ⟨y, hy, hxy⟩ := hc
        obtain ⟨k, hk, hky⟩ := List.mem_iff_getElem.mp hy
        have hyk : xs.getD k 0 = y := by rw [List.getD_eq_getElem xs 0 hk, hky]
        have : y ≤ xs.getD (argmaxIdx xs) 0 := by
          rw [← hyk]
          exact argmaxIdx_is_max xs hxs k hk
        linarith
      match j with
      | 0 => simpa using hlt
      | j + 1 =>
        simp only [List.getD_cons_succ]
        exact ih hxs j (by omega)

/-- The linear scan of `map_test_code` / `map_ref_code`: compute the cosine
similarity of the query against every catalog embedding (in load order),
then take `np.argmax` and the score at that index.  `none` models the
`ValueError` that `np.argmax` raises on an empty catalog. -/
noncomputable def nearestNeighbor (q : List ℝ) (embs : List (List ℝ)) :
    Option (Nat × ℝ) :=
  match embs with
  | [] => none
  | _ :: _ =>
    some (argmaxIdx (embs.map fun e => cosine_sim q e),
      (embs.map fun e => cosine_sim q e).getD (argmaxIdx (embs.map fun e => cosine_sim q e)) 0)

/-- Full behaviour of the nearest-neighbour scan on a non-empty embedding
list: it returns the `np.argmax` index together with the score at that
index, the score is the cosine similarity of the query against the row at
the returned index, it is maximal over all rows, and any row attaining the
score sits at or after the returned index. -/
theorem nearestNeighbor_spec (q : List ℝ) (embs : List (List ℝ)) (h : embs ≠ []) :
    ∃ i s, nearestNeighbor q embs = some (i, s) ∧ i < embs.length ∧
      s = cosine_sim q (embs.getD i []) ∧
      (∀ j, j < embs.length → cosine_sim q (embs.getD j []) ≤ s) ∧
      (∀ j, j < embs.length → cosine_sim q (embs.getD j []) = s → i ≤ j) := by
  have hsims : (embs.map fun e => cosine_sim q e) ≠ [] := by
    intro he
    exact h (List.map_eq_nil_iff.mp he)
  have hlen : (embs.map fun e => cosine_sim q e).length = embs.length :=
    List.length_map _ _
  have hi : argmaxIdx (embs.map fun e => cosine_sim q e) < embs.length := by
    have := argmaxIdx_lt_length _ hsims
    omega
  have hgd : ∀ j, j < embs.length →
      (embs.map fun e => cosine_sim q e).getD j 0 = cosine_sim q (embs.getD j []) := by
    intro j hj
    exact getD_map (fun e => cosine_sim q e) embs hj 0 []
  cases embs with
  | nil => exact absurd rfl h
  | cons e es =>
    refine ⟨argmaxIdx ((e :: es).map fun v => cosine_sim q v),
      ((e :: es).map fun v => cosine_sim q v).getD
        (argmaxIdx ((e :: es).map fun v => cosine_sim q v)) 0, rfl, hi, ?_, ?_, ?_⟩
    · exact hgd _ hi
    · intro j hj
      rw [← hgd j hj]
      exact argmaxIdx_is_max _ hsims j (by omega)
    · intro j hj hs
      by_contra hji
      push_neg at hji
      have := argmaxIdx_first _ hsims j hji
      rw [hgd j hj, hs] at this
      exact lt_irrefl _ this

/-! ### Catalog records and the two matching functions -/

/-- One row of `testDataAllEmbedded16102024.csv` after the embedding column
has been decoded. -/
structure TestRecord where
  TestCode : String
  TestName : String
  TestNameEmbedding : List ℝ

/-- One row of `refDataAllEmbedded16102024.csv` after the embedding column
has been decoded. -/
structure RefRecord where
  RefCode : String
  RefName : String
  RefType : String
  RefNameEmbedding : List ℝ

/-- A default record used only as the (never reached) `getD` fallback. -/
def dummyTest : TestRecord := ⟨"", "", []⟩

/-- A default record used only as the (never reached) `getD` fallback. -/
def dummyRef : RefRecord := ⟨"", "", "", []⟩

/-- Model of `map_test_code` from `utils/testMap_utils.py`, with the external
embedding provider injected as `emb` and the loaded catalog as `cat`.
The first component counts the `get_embedding` invocations performed
(the source has a single, unconditional call site).  The result is `none`
when `np.argmax` raises on an empty catalog, and otherwise the
`(closest_test_name, closest_test_code)` pair. -/
noncomputable def map_test_code (emb : String → List ℝ) (cat : List TestRecord)
    (input_test_name : String) (threshold : ℝ) :
    Nat × Option (Option String × Option String) :=
  match nearestNeighbor (emb input_test_name) (cat.map fun r => r.TestNameEmbedding) with
  | none => (1, none)
  | some (i, s) =>
    if threshold ≤ s then
      (1, some (some (cat.getD i dummyTest).TestName, some (cat.getD i dummyTest).TestCode))
    else
      (1, some (none, none))

/-- Model of `map_ref_code` from `utils/testMap_utils.py`, with the same conventions
as `map_test_code`; returns `(closest_ref_name, closest_ref_code,
closest_ref_type)`. -/
noncomputable def map_ref_code (emb : String → List ℝ) (cat : List RefRecord)
    (input_ref_name : String) (threshold : ℝ) :
    Nat × Option (Option String × Option String × Option String) :=
  match nearestNeighbor (emb input_ref_name) (cat.map fun r => r.RefNameEmbedding) with
  | none => (1, none)
  | some (i, s) =>
    if threshold ≤ s then
      (1, some (some (cat.getD i dummyRef).RefName, some (cat.getD i dummyRef).RefCode,
        some (cat.getD i dummyRef).RefType))
    else
      (1, some (none, none, none))

/-- Holds exactly when the string is empty or consists only of whitespace
characters — the texts the spec's empty-text rule talks about. -/
def isWhitespaceOnly (s : String) : Bool :=
  s.toList.all fun c => decide (c = ' ' ∨ c = '\t' ∨ c = '\n' ∨ c = '\r')

/-! ### Claim theorems: the matching engine -/

/-- Claim C1: for every catalog with at least one record and every query
vector, the nearest-neighbour scan returns a record present in the catalog
together with its cosine-similarity score, the score is maximal over all
records and lies in [-1, 1], and any record attaining the score sits at or
after the returned index (first record in load order wins ties). -/
theorem C1_nearestNeighbor_correct (q : List ℝ) (cat : List RefRecord)
    (hcat : cat ≠ []) :
    ∃ i s, nearestNeighbor q (cat.map fun r => r.RefNameEmbedding) = some (i, s) ∧
      i < cat.length ∧
      cat.getD i dummyRef ∈ cat ∧
      s = cosine_sim q (cat.getD i dummyRef).RefNameEmbedding ∧
      (∀ j, j < cat.length → cosine_sim q (cat.getD j dummyRef).RefNameEmbedding ≤ s) ∧
      (∀ j, j < cat.length →
        cosine_sim q (cat.getD j dummyRef).RefNameEmbedding = s → i ≤ j) ∧
      -1 ≤ s ∧ s ≤ 1 := by
  have hne : cat.map (fun r => r.RefNameEmbedding) ≠ [] := by
    intro he
    exact hcat (List.map_eq_nil_iff.mp he)
  obtain ⟨i, s, hnn, hi, hs, hmax, hfirst⟩ := nearestNeighbor_spec q _ hne
  have hlen : (cat.map fun r => r.RefNameEmbedding).length = cat.length :=
    List.length_map _ _
  have hi' : i < cat.length := by omega
  have hconv : ∀ j, j < cat.length →
      (cat.map fun r => r.RefNameEmbedding).getD j [] =
        (cat.getD j dummyRef).RefNameEmbedding := by
    intro j hj
    exact getD_map _ cat hj [] dummyRef
  refine ⟨i, s, hnn, hi', getD_mem hi' dummyRef, ?_, ?_, ?_, ?_, ?_⟩
  · rw [← hconv i hi']
    exact hs
  · intro j hj
    rw [← hconv j hj]
    exact hmax j (by omega)
  · intro j hj he
    refine hfirst j (by omega) ?_
    rw [hconv j hj]
    exact he
  · rw [hs]
    exact (cosine_sim_bounds _ _).1
  · rw [hs]
    exact (cosine_sim_bounds _ _).2

/-- A concrete one-record referrer catalog used by witnesses. -/
def refR1 : RefRecord := ⟨"R1", "Dr", "doctor", [(1 : ℝ)]⟩

/-- A concrete one-record test catalog used by witnesses and
counterexamples. -/
def testT1 : TestRecord := ⟨"T1", "CBC", [(1 : ℝ)]⟩

/-- A concrete test record whose embedding is the zero vector. -/
def testT0 : TestRecord := ⟨"T0", "ZERO", [(0 : ℝ)]⟩

/-- Witness for C1 at a concrete one-record catalog. -/
theorem C1_nearestNeighbor_correct_witness :
    ∃ i s, nearestNeighbor [(1 : ℝ)] ([refR1].map fun r => r.RefNameEmbedding) =
      some (i, s) ∧ -1 ≤ s ∧ s ≤ 1 := by
  obtain ⟨i, s, hnn, _, _, _, _, _, hlo, hhi⟩ :=
    C1_nearestNeighbor_correct [(1 : ℝ)] [refR1] (by simp)
  exact ⟨i, s, hnn, hlo, hhi⟩

/-- Claim C2: on a non-empty catalog, `map_ref_code` populates the matched
name/code/type from the winning record exactly when the winning score
reaches the threshold, and returns all three fields absent otherwise. -/
theorem C2_map_ref_code_threshold (emb : String → List ℝ) (cat : List RefRecord)
    (text : String) (t : ℝ) (hcat : cat ≠ []) :
    ∃ i s, nearestNeighbor (emb text) (cat.map fun r => r.RefNameEmbedding) =
        some (i, s) ∧
      (t ≤ s → (map_ref_code emb cat text t).2 =
        some (some (cat.getD i dummyRef).RefName, some (cat.getD i dummyRef).RefCode,
          some (cat.getD i dummyRef).RefType)) ∧
      (s < t → (map_ref_code emb cat text t).2 = some (none, none, none)) := by
  have hne : cat.map (fun r => r.RefNameEmbedding) ≠ [] := by
    intro he
    exact hcat (List.map_eq_nil_iff.mp he)
  obtain ⟨i, s, hnn, _, _, _, _⟩ := nearestNeighbor_spec (emb text) _ hne
  refine ⟨i, s, hnn, ?_, ?_⟩
  · intro ht
    unfold map_ref_code
    rw [hnn]
    simp [ht]
  · intro ht
    unfold map_ref_code
    rw [hnn]
    simp [not_le.mpr ht]

/-- Witness for C2 at a concrete one-record catalog. -/
theorem C2_map_ref_code_threshold_witness :
    ∃ i s, nearestNeighbor ((fun _ : String => [(1 : ℝ)]) "cbc")
      ([refR1].map fun r => r.RefNameEmbedding) = some (i, s) := by
  obtain ⟨i, s, hnn, _, _⟩ :=
    C2_map_ref_code_threshold (fun _ => [(1 : ℝ)]) [refR1] "cbc" 0 (by simp)
  exact ⟨i, s, hnn⟩

/-- Claim C4 (confirmed): threshold monotonicity of `map_test_code` — if
the match is absent at threshold `t1`, it stays absent at any `t2 ≥ t1`. -/
theorem C4_threshold_monotone (emb : String → List ℝ) (cat : List TestRecord)
    (text : String) (t1 t2 : ℝ) (h12 : t1 ≤ t2)
    (habs : (map_test_code emb cat text t1).2 = some (none, none)) :
    (map_test_code emb cat text t2).2 = some (none, none) := by
  unfold map_test_code at habs ⊢
  cases hnn : nearestNeighbor (emb text) (cat.map fun r => r.TestNameEmbedding) with
  | none =>
    rw [hnn] at habs
    simp at habs
  | some p =>
    obtain ⟨i, s⟩ := p
    rw [hnn] at habs
    by_cases h1 : t1 ≤ s
    · simp [h1] at habs
    · have h2 : ¬ t2 ≤ s := by
        push_neg at h1 ⊢
        linarith
      simp [h2]

theorem dot_single (x y : ℝ) : dot [x] [y] = x * y := by
  simp [dot]

theorem cosine_sim_one_one : cosine_sim [(1 : ℝ)] [(1 : ℝ)] = 1 := by
  rw [cosine_sim_eq_div]
  have hd : dot [(1 : ℝ)] [(1 : ℝ)] = 1 := by
    rw [dot_single]
    norm_num
  have hl : l2norm [(1 : ℝ)] = 1 := by
    rw [l2norm, hd, Real.sqrt_one]
  have hs : skdenom [(1 : ℝ)] = 1 := by
    rw [skdenom, hl]
    norm_num
  rw [hd, hs]
  norm_num

theorem cosine_sim_one_zero : cosine_sim [(1 : ℝ)] [(0 : ℝ)] = 0 := by
  rw [cosine_sim_eq_div]
  have hd : dot [(1 : ℝ)] [(0 : ℝ)] = 0 := by
    rw [dot_single]
    norm_num
  rw [hd, zero_div]

/-- Witness for C4: with a zero-embedding catalog the match is absent at
threshold 1/2, and the theorem lifts the absence to threshold 1. -/
theorem C4_threshold_monotone_witness :
    (map_test_code (fun _ => [(1 : ℝ)]) [testT0] "x" 1).2 = some (none, none) := by
  have habs : (map_test_code (fun _ => [(1 : ℝ)]) [testT0] "x" (1 / 2)).2 =
      some (none, none) := by
    simp only [map_test_code, nearestNeighbor, testT0, List.map_cons, List.map_nil,
      cosine_sim_one_zero, argmaxIdx, List.mem_nil_iff, false_implies, implies_true,
      if_true, List.getD_cons_zero]
    norm_num
  exact C4_threshold_monotone _ _ _ _ _ (by norm_num) habs

/-- Claim C3 is false on the code: `map_test_code` has no empty-text
short-circuit.  With an embedding provider mapping every string (the empty
string included) to `[1]` and a catalog whose record has embedding `[1]`,
the call on the empty string invokes the provider (call count 1, not 0)
and returns a populated match rather than an absent one. -/
theorem C3_counterexample :
    (map_test_code (fun _ => [(1 : ℝ)]) [testT1] "" 0).1 = 1 ∧
    (map_test_code (fun _ => [(1 : ℝ)]) [testT1] "" 0).2 =
      some (some "CBC", some "T1") := by
  constructor <;>
    · simp only [map_test_code, nearestNeighbor, testT1, List.map_cons, List.map_nil,
        cosine_sim_one_one, argmaxIdx, List.mem_nil_iff, false_implies, implies_true,
        if_true, List.getD_cons_zero]
      norm_num

/-- Claim C3 as amended: a call on an empty or whitespace-only text still
invokes the EmbeddingProvider (exactly once, like every call), and the
result is the ordinary thresholded nearest-neighbour match of the
embedding of that text — there is no empty-text short-circuit. -/
theorem C3_amended_no_empty_shortcircuit (emb : String → List ℝ)
    (cat : List TestRecord) (t : ℝ) (text : String)
    (_hw : isWhitespaceOnly text = true) :
    (map_test_code emb cat text t).1 = 1 ∧
    (cat ≠ [] → ∃ i s,
      nearestNeighbor (emb text) (cat.map fun r => r.TestNameEmbedding) = some (i, s) ∧
      ((t ≤ s ∧ (map_test_code emb cat text t).2 =
          some (some (cat.getD i dummyTest).TestName,
            some (cat.getD i dummyTest).TestCode)) ∨
       (s < t ∧ (map_test_code emb cat text t).2 = some (none, none)))) := by
  constructor
  · unfold map_test_code
    cases hnn : nearestNeighbor (emb text) (cat.map fun r => r.TestNameEmbedding) with
    | none => simp
    | some p =>
      obtain ⟨i, s⟩ := p
      by_cases h1 : t ≤ s
      · simp [h1]
      · simp [h1]
  · intro hcat
    have hne : cat.map (fun r => r.TestNameEmbedding) ≠ [] := by
      intro he
      exact hcat (List.map_eq_nil_iff.mp he)
    obtain ⟨i, s, hnn, _, _, _, _⟩ := nearestNeighbor_spec (emb text) _ hne
    refine ⟨i, s, hnn, ?_⟩
    by_cases h1 : t ≤ s
    · left
      refine ⟨h1, ?_⟩
      unfold map_test_code
      rw [hnn]
      simp [h1]
    · right
      refine ⟨not_le.mp h1, ?_⟩
      unfold map_test_code
      rw [hnn]
      simp [h1]

/-- Witness for the amended C3: the provider is invoked once on the empty
string. -/
theorem C3_amended_witness :
    (map_test_code (fun _ => [(1 : ℝ)]) [testT1] "" 0).1 = 1 :=
  (C3_amended_no_empty_shortcircuit (fun _ => [(1 : ℝ)]) [testT1] 0 "" (by decide)).1

/-- Claim C5: the similarity used for ranking equals the spec formula
`dot(a,b) / (||a|| * ||b||)` with the similarity defined to be 0 whenever
either vector has zero norm, and it is a total real value in [-1, 1], so
every comparison made by the nearest-neighbour scan is well-defined. -/
theorem C5_cosine_similarity_total (a b : List ℝ) :
    cosine_sim a b = cosineSimSpec a b ∧
    ((l2norm a = 0 ∨ l2norm b = 0) → cosine_sim a b = 0) ∧
    -1 ≤ cosine_sim a b ∧ cosine_sim a b ≤ 1 := by
  refine ⟨cosine_sim_eq_spec a b, ?_, (cosine_sim_bounds a b).1,
    (cosine_sim_bounds a b).2⟩
  intro h
  rw [cosine_sim_eq_spec, cosineSimSpec, if_pos h]

/-- Witness for C5: a zero-norm first argument yields similarity 0. -/
theorem C5_cosine_similarity_total_witness :
    cosine_sim [(0 : ℝ)] [(1 : ℝ)] = 0 := by
  have h0 : l2norm [(0 : ℝ)] = 0 := by
    have hd : dot [(0 : ℝ)] [(0 : ℝ)] = 0 := by
      rw [dot_single]
      norm_num
    rw [l2norm, hd, Real.sqrt_zero]
  exact (C5_cosine_similarity_total [(0 : ℝ)] [(1 : ℝ)]).2.1 (Or.inl h0)

/-! ### The image-compression loop (`utils/utils.py`, `compress_image`) -/

/-- A Python runtime value returned by `compress_image`: the source can in
principle hand back a string (a file path) or a bytes object; which one it
is, is part of what the claims are about. -/
inductive PyVal where
  | Str : String → PyVal
  | Bytes : List Nat → PyVal
deriving DecidableEq

/-- The loop's exit test, straight from the source:
`size_kb <= max_size_mb * 1024 or quality <= 5`, with
`size_kb = buffer.tell() / 1024`. -/
def stopCond (max_size_mb : ℚ) (bufLen quality : Nat) : Prop :=
  (bufLen : ℚ) / 1024 ≤ max_size_mb * 1024 ∨ quality ≤ 5

instance (m : ℚ) (b q : Nat) : Decidable (stopCond m b q) := by
  unfold stopCond
  exact inferInstance

/-- Overwriting write into a `BytesIO` buffer that has been rewound with
`seek(0)` but never truncated: the fresh bytes replace the first
`new.length` bytes and any longer stale remainder of the previous contents
survives. -/
def overwrite (prev new : List Nat) : List Nat := new ++ prev.drop new.length

/-- The quality-reduction loop.  `encode q` stands for the bytes produced
by `img.save(buffer, format=img_format, quality=q)`; `prev` is the current
contents of the shared `BytesIO` buffer, which each iteration rewinds with
`buffer.seek(0)` and overwrites without truncating (`overwrite`).  The exit
test reads `buffer.tell()`, which after the write equals the length of the
fresh encoding.  Recursion is by a fuel argument so the definition stays
structural; with the invariant `q ≤ 5 * fuel + 5` (always established
below) the fuel-exhausted base case coincides with the source's
`quality <= 5` exit and is never a deviation.  Returns the list of
qualities tried (in order) and the final buffer contents
(`buffer.getvalue()`, stale tail included). -/
def compressLoopF (encode : Nat → List Nat) (m : ℚ) :
    Nat → Nat → List Nat → List Nat × List Nat
  | 0, q, prev => ([q], overwrite prev (encode q))
  | fuel + 1, q, prev =>
    if stopCond m (encode q).length q then ([q], overwrite prev (encode q))
    else
      ((q :: (compressLoopF encode m fuel (q - 5) (overwrite prev (encode q))).1),
        (compressLoopF encode m fuel (q - 5) (overwrite prev (encode q))).2)

/-- The loop as entered by the source, at the given starting quality and
with a fresh empty `io.BytesIO()` buffer. -/
def compress_loop (encode : Nat → List Nat) (m : ℚ) (q : Nat) :
    List Nat × List Nat :=
  compressLoopF encode m q q []

/-- Python `str.lower()` on the ASCII format names PIL produces. -/
def pyLower (s : String) : String := ⟨s.data.map Char.toLower⟩

/-- The audit-file path
`os.path.join('output', f"compressed_image_" + timestamp + "." + format.lower())`. -/
def audit_path (ts fmt : String) : String :=
  "output/compressed_image_" ++ ts ++ "." ++ pyLower fmt

/-- Everything externally visible about `compress_image`: its return value,
the file writes it performs, the qualities tried, and the bytes written to
the audit file (`buffer.getvalue()`). -/
structure CompressOut where
  ret : PyVal
  written : List (String × List Nat)
  qualities : List Nat
  buf : List Nat
deriving DecidableEq

/-- Model of `compress_image` from `utils/utils.py`: run the quality loop
from 95 on a fresh buffer, write `buffer.getvalue()` to the timestamped
audit path, and return that path. -/
def compress_image (encode : Nat → List Nat) (m : ℚ) (ts fmt : String) :
    CompressOut :=
  ⟨PyVal.Str (audit_path ts fmt),
    [(audit_path ts fmt, (compress_loop encode m 95).2)],
    (compress_loop encode m 95).1,
    (compress_loop encode m 95).2⟩

theorem range_map_sub_succ (q n : Nat) :
    (List.range (n + 1)).map (fun i => q - 5 * i) =
      q :: (List.range n).map fun i => q - 5 - 5 * i := by
  rw [List.range_succ_eq_map, List.map_cons, List.map_map]
  refine congrArg₂ _ (by simp) ?_
  refine List.map_congr_left ?_
  intro i _
  simp only [Function.comp_apply]
  omega

/-- Full characterisation of the quality loop: it tries a strictly
5-decreasing arithmetic sequence of qualities starting at `q`, stops at the
first quality satisfying the exit condition, and the final buffer contents
begin with the encoding at the last quality tried — followed by whatever
stale bytes of earlier, longer encodings survive the seek-without-truncate
overwrites. -/
theorem compressLoopF_spec (encode : Nat → List Nat) (m : ℚ) :
    ∀ fuel q prev, q ≤ 5 * fuel + 5 →
      ∃ n, 1 ≤ n ∧
        (compressLoopF encode m fuel q prev).1 =
          (List.range n).map (fun i => q - 5 * i) ∧
        (∃ stale, (compressLoopF encode m fuel q prev).2 =
          encode (q - 5 * (n - 1)) ++ stale) ∧
        stopCond m (encode (q - 5 * (n - 1))).length (q - 5 * (n - 1)) ∧
        ∀ i, i + 1 < n → ¬ stopCond m (encode (q - 5 * i)).length (q - 5 * i) := by
  intro fuel
  induction fuel with
  | zero =>
    intro q prev hq
    refine ⟨1, le_refl 1, ?_, ⟨prev.drop (encode q).length, ?_⟩, ?_, by omega⟩
    · rw [show List.range 1 = [0] from rfl]
      simp [compressLoopF]
    · simp [compressLoopF, overwrite]
    · simp only [Nat.sub_self, Nat.mul_zero, Nat.sub_zero]
      exact Or.inr (by omega)
  | succ fuel ih =>
    intro q prev hq
    by_cases hstop : stopCond m (encode q).length q
    · refine ⟨1, le_refl 1, ?_, ⟨prev.drop (encode q).length, ?_⟩, ?_, by omega⟩
      · rw [show List.range 1 = [0] from rfl]
        simp [compressLoopF, hstop]
      · simp [compressLoopF, hstop, overwrite]
      · simpa using hstop
    · have hq5 : ¬ q ≤ 5 := fun h => hstop (Or.inr h)
      obtain ⟨n, hn1, h1, ⟨stale, h2⟩, hstopn, hearl⟩ :=
        ih (q - 5) (overwrite prev (encode q)) (by omega)
      have hred : compressLoopF encode m (fuel + 1) q prev =
          ((q :: (compressLoopF encode m fuel (q - 5) (overwrite prev (encode q))).1),
            (compressLoopF encode m fuel (q - 5) (overwrite prev (encode q))).2) := by
        simp [compressLoopF, hstop]
      refine ⟨n + 1, by omega, ?_, ⟨stale, ?_⟩, ?_, ?_⟩
      · rw [hred, range_map_sub_succ]
        show q :: (compressLoopF encode m fuel (q - 5) (overwrite prev (encode q))).1 = _
        rw [h1]
      · have harith : q - 5 - 5 * (n - 1) = q - 5 * (n + 1 - 1) := by omega
        rw [hred]
        show (compressLoopF encode m fuel (q - 5) (overwrite prev (encode q))).2 = _
        rw [h2, harith]
      · have harith : q - 5 - 5 * (n - 1) = q - 5 * (n + 1 - 1) := by omega
        rw [← harith]
        exact hstopn
      · intro i hi
        match i with
        | 0 => simpa using hstop
        | i + 1 =>
          have harith : q - 5 * (i + 1) = q - 5 - 5 * i := by omega
          rw [harith]
          exact hearl i (by omega)

theorem getLastD_range_map (f : Nat → Nat) (n : Nat) (hn : 1 ≤ n) (d : Nat) :
    ((List.range n).map f).getLastD d = f (n - 1) := by
  obtain ⟨k, rfl⟩ : ∃ k, n = k + 1 := ⟨n - 1, by omega⟩
  rw [List.range_succ, List.map_append, List.map_cons, List.map_nil,
    List.getLastD_concat]
  simp

/-- One unfolding step of the loop at positive fuel. -/
theorem compressLoopF_succ (encode : Nat → List Nat) (m : ℚ) (fuel q : Nat)
    (prev : List Nat) :
    compressLoopF encode m (fuel + 1) q prev =
      if stopCond m (encode q).length q then ([q], overwrite prev (encode q))
      else
        ((q :: (compressLoopF encode m fuel (q - 5) (overwrite prev (encode q))).1),
          (compressLoopF encode m fuel (q - 5) (overwrite prev (encode q))).2) := rfl

/-- An encoder whose first encoding (at quality 95) is longer than its
later ones, used to exhibit the stale-tail behaviour of the rewound,
never-truncated buffer. -/
def encTwoStep (q : Nat) : List Nat := if q = 95 then [1, 2, 3] else [9]

/-! ### Claim theorems: compression -/

/-- Claim C6 is false on the code: `compress_image` returns the audit-file
path (a string), not the compressed byte sequence.  At a concrete input the
returned value is the path string and differs from any bytes value, in
particular from the bytes written to the file.  Moreover even those file
bytes are not the last encoded buffer: in a two-iteration run whose first
encoding `[1, 2, 3]` is longer than its second `[9]`, the file receives
`[9, 2, 3]` — the final encoding plus the stale tail left in the rewound,
never-truncated buffer. -/
theorem C6_counterexample :
    (compress_image (fun _ => [7]) 1 "2024-01-01-00-00-00" "JPEG").ret =
      PyVal.Str "output/compressed_image_2024-01-01-00-00-00.jpeg" ∧
    (compress_image (fun _ => [7]) 1 "2024-01-01-00-00-00" "JPEG").ret ≠
      PyVal.Bytes (compress_image (fun _ => [7]) 1 "2024-01-01-00-00-00" "JPEG").buf ∧
    (compress_image encTwoStep (2 / 1048576) "t" "jpeg").qualities = [95, 90] ∧
    (compress_image encTwoStep (2 / 1048576) "t" "jpeg").buf = [9, 2, 3] := by
  have h95 : ¬ stopCond (1 / 524288 : ℚ) 3 95 := by
    unfold stopCond
    push_neg
    exact ⟨by norm_num, by norm_num⟩
  have h90 : stopCond (1 / 524288 : ℚ) 1 90 := Or.inl (by norm_num)
  have hc : compress_loop encTwoStep (2 / 1048576) 95 = ([95, 90], [9, 2, 3]) := by
    unfold compress_loop
    rw [show (95 : Nat) = 94 + 1 from rfl, compressLoopF_succ]
    norm_num [encTwoStep, overwrite]
    rw [if_neg h95]
    rw [show (94 : Nat) = 93 + 1 from rfl, compressLoopF_succ]
    norm_num [encTwoStep, overwrite]
    rw [if_pos h90]
    norm_num
  refine ⟨by decide, ?_, ?_, ?_⟩
  · intro h
    exact PyVal.noConfusion h
  · show (compress_loop encTwoStep (2 / 1048576) 95).1 = [95, 90]
    rw [hc]
  · show (compress_loop encTwoStep (2 / 1048576) 95).2 = [9, 2, 3]
    rw [hc]

/-- Claim C6 as amended: `compress_image` writes the compression buffer's
contents to the timestamped audit file — the encoding at the last quality
the loop tried, followed by any stale trailing bytes of earlier, longer
encodings that survive because the buffer is rewound with `seek(0)` but
never truncated — and returns that file's path to its caller; the caller
obtains the bytes by reading the file at the returned path, as
`url_api.py` does. -/
theorem C6_amended_compress_returns_audit_path (encode : Nat → List Nat)
    (m : ℚ) (ts fmt : String) :
    (compress_image encode m ts fmt).ret = PyVal.Str (audit_path ts fmt) ∧
    (compress_image encode m ts fmt).written =
      [(audit_path ts fmt, (compress_image encode m ts fmt).buf)] ∧
    ∃ stale, (compress_image encode m ts fmt).buf =
      encode ((compress_image encode m ts fmt).qualities.getLastD 0) ++ stale := by
  refine ⟨rfl, rfl, ?_⟩
  obtain ⟨n, hn1, h1, ⟨stale, h2⟩, _, _⟩ :=
    compressLoopF_spec encode m 95 95 [] (by omega)
  refine ⟨stale, ?_⟩
  show (compress_loop encode m 95).2 =
    encode ((compress_loop encode m 95).1.getLastD 0) ++ stale
  unfold compress_loop
  rw [h1, h2, getLastD_range_map _ n hn1]

/-- Claim C7: for every encoder and positive byte budget the compression
loop terminates without error after at most 19 encode iterations; the
qualities tried start at 95 and decrease by exactly 5 each step, the loop
exits at the first quality meeting the size budget or the floor of 5, and
the final buffer contents begin with the encoding at the last quality
tried. -/
theorem C7_compress_loop_bounded (encode : Nat → List Nat) (m : ℚ)
    (_hm : 0 < m) :
    ∃ n, 1 ≤ n ∧ n ≤ 19 ∧
      (compress_loop encode m 95).1 = (List.range n).map (fun i => 95 - 5 * i) ∧
      (∃ stale, (compress_loop encode m 95).2 =
        encode (95 - 5 * (n - 1)) ++ stale) ∧
      stopCond m (encode (95 - 5 * (n - 1))).length (95 - 5 * (n - 1)) ∧
      ∀ i, i + 1 < n → ¬ stopCond m (encode (95 - 5 * i)).length (95 - 5 * i) := by
  obtain ⟨n, hn1, h1, h2, hstop, hearl⟩ :=
    compressLoopF_spec encode m 95 95 [] (by omega)
  unfold compress_loop
  refine ⟨n, hn1, ?_, h1, h2, hstop, hearl⟩
  by_contra h
  push_neg at h
  exact hearl 18 (by omega) (Or.inr (by norm_num))

/-- Witness for C7 with a concrete encoder and budget. -/
theorem C7_compress_loop_bounded_witness :
    ∃ n, 1 ≤ n ∧ n ≤ 19 ∧
      (compress_loop (fun _ => ([] : List Nat)) 1 95).1 =
        (List.range n).map (fun i => 95 - 5 * i) := by
  obtain ⟨n, h1, h19, hq, _, _, _⟩ :=
    C7_compress_loop_bounded (fun _ => ([] : List Nat)) 1 (by norm_num)
  exact ⟨n, h1, h19, hq⟩

/-! ### Code-fence stripping (`url_api.py` step 6)

`gpt_response = content.split('```json')[-1].split('```')[0]` is modelled
over `List Char` with a faithful model of Python's `str.split` for a
non-empty separator: split at the leftmost, non-overlapping occurrences. -/

/-- The backtick character (written by code point to keep backticks out of
the source text). -/
def btick : Char := Char.ofNat 96

/-- The separator of the second split. -/
def fence : List Char := "```".toList

/-- The separator of the first split. -/
def fenceJson : List Char := "```json".toList

/-- Whether `sep` occurs as a contiguous subsequence. -/
def containsSeq (sep : List Char) : List Char → Bool
  | [] => decide (sep = [])
  | c :: rest => decide ((c :: rest).take sep.length = sep) || containsSeq sep rest

/-- Python `str.split(sep)` for a non-empty `sep`, by fuel-indexed
structural recursion; `pySplit` below supplies fuel equal to the input
length, which is always sufficient. -/
def pySplitF (sep : List Char) : Nat → List Char → List (List Char)
  | _, [] => [[]]
  | 0, xs => [xs]
  | fuel + 1, c :: rest =>
    if (c :: rest).take sep.length = sep ∧ sep ≠ [] then
      [] :: pySplitF sep fuel ((c :: rest).drop sep.length)
    else
      match pySplitF sep fuel rest with
      | [] => [c :: rest]
      | p :: ps => (c :: p) :: ps

/-- Python `str.split(sep)` (non-empty separator). -/
def pySplit (sep xs : List Char) : List (List Char) := pySplitF sep xs.length xs

/-- The source's fence-stripping expression:
`content.split('```json')[-1].split('```')[0]`. -/
def strip_fences (content : List Char) : List Char :=
  (pySplit fence ((pySplit fenceJson content).getLastD [])).headD []

theorem pySplitF_no_occurrence (sep : List Char) :
    ∀ fuel xs, containsSeq sep xs = false → pySplitF sep fuel xs = [xs] := by
  intro fuel
  induction fuel with
  | zero =>
    intro xs _
    cases xs <;> rfl
  | succ fuel ih =>
    intro xs hxs
    cases xs with
    | nil => rfl
    | cons c rest =>
      rw [containsSeq, Bool.or_eq_false_iff] at hxs
      obtain ⟨h1, h2⟩ := hxs
      have hne : ¬ ((c :: rest).take sep.length = sep ∧ sep ≠ []) := by
        intro hco
        rw [decide_eq_false_iff_not] at h1
        exact h1 hco.1
      rw [pySplitF, if_neg hne, ih rest h2]

theorem pySplitF_head_occurrence (sep : List Char) (hsep : sep ≠ [])
    (fuel : Nat) (ys : List Char) :
    pySplitF sep (fuel + 1) (sep ++ ys) = [] :: pySplitF sep fuel (ys) := by
  cases sep with
  | nil => exact absurd rfl hsep
  | cons s st =>
    have htake : ((s :: st) ++ ys).take (s :: st).length = s :: st :=
      List.take_left _ _
    have hdrop : ((s :: st) ++ ys).drop (s :: st).length = ys :=
      List.drop_left _ _
    rw [List.cons_append, pySplitF, if_pos ⟨by rw [← List.cons_append, htake],
      by simp⟩, ← List.cons_append, hdrop]

theorem take_eq_head {sep : List Char} {s : Char} {st : List Char}
    (hsep : sep = s :: st) (c : Char) (rest : List Char)
    (h : (c :: rest).take sep.length = sep) : c = s := by
  subst hsep
  simp only [List.length_cons, List.take_succ_cons, List.cons.injEq] at h
  exact h.1

theorem fence_eq : fence = btick :: btick :: btick :: [] := by decide

theorem fenceJson_eq : fenceJson = btick :: btick :: btick :: 'j' :: 's' :: 'o' :: 'n' :: [] := by
  decide

theorem no_btick_no_fence (c : List Char) (hbt : ∀ ch ∈ c, ch ≠ btick) :
    containsSeq fence c = false := by
  induction c with
  | nil => decide
  | cons ch rest ih =>
    rw [containsSeq, Bool.or_eq_false_iff]
    refine ⟨decide_eq_false ?_, ih fun x hx => hbt x (List.mem_cons_of_mem ch hx)⟩
    intro htake
    exact hbt ch (List.mem_cons_self ch rest) (take_eq_head fence_eq ch rest htake)

theorem no_btick_no_fenceJson_append (c : List Char)
    (hbt : ∀ ch ∈ c, ch ≠ btick) :
    containsSeq fenceJson (c ++ fence) = false := by
  induction c with
  | nil => decide
  | cons ch rest ih =>
    rw [List.cons_append, containsSeq, Bool.or_eq_false_iff]
    refine ⟨decide_eq_false ?_, ih fun x hx => hbt x (List.mem_cons_of_mem ch hx)⟩
    intro htake
    exact hbt ch (List.mem_cons_self ch rest)
      (take_eq_head fenceJson_eq ch (rest ++ fence) htake)

theorem contains_fenceJson_imp_fence :
    ∀ xs, containsSeq fenceJson xs = true → containsSeq fence xs = true := by
  intro xs
  induction xs with
  | nil => decide
  | cons c rest ih =>
    rw [containsSeq, containsSeq, Bool.or_eq_true, Bool.or_eq_true]
    rintro (h | h)
    · left
      rw [decide_eq_true_iff] at h
      rw [decide_eq_true_iff]
      have h3 : ((c :: rest).take fenceJson.length).take fence.length =
          fenceJson.take fence.length := by rw [h]
      rw [List.take_take] at h3
      have hmin : min fence.length fenceJson.length = fence.length := by decide
      rw [hmin] at h3
      rw [h3]
      decide
    · exact Or.inr (ih h)

theorem pySplitF_c_append_fence (c : List Char) (hbt : ∀ ch ∈ c, ch ≠ btick) :
    ∀ fuel, c.length + 3 ≤ fuel → pySplitF fence fuel (c ++ fence) = [c, []] := by
  induction c with
  | nil =>
    intro fuel hfuel
    obtain ⟨f, rfl⟩ : ∃ f, fuel = f + 1 := ⟨fuel - 1, by omega⟩
    rw [List.nil_append]
    nth_rewrite 2 [show fence = fence ++ [] by rw [List.append_nil]]
    rw [pySplitF_head_occurrence fence (by decide) f []]
    cases f <;> rfl
  | cons ch rest ih =>
    intro fuel hfuel
    obtain ⟨f, rfl⟩ : ∃ f, fuel = f + 1 := ⟨fuel - 1, by omega⟩
    rw [List.cons_append, pySplitF]
    have hne : ¬ ((ch :: (rest ++ fence)).take fence.length = fence ∧ fence ≠ []) := by
      intro hco
      exact hbt ch (List.mem_cons_self ch rest)
        (take_eq_head fence_eq ch (rest ++ fence) hco.1)
    rw [if_neg hne, ih (fun x hx => hbt x (List.mem_cons_of_mem ch hx)) f
      (by simp at hfuel ⊢; omega)]

/-! ### Claim theorem: fence stripping -/

/-- Claim C10: the extraction-response normaliser accepts fenced and
unfenced provider output.  On content with no code-fence marker the
stripping step is the identity (so any parser sees the whole content), and
on content wrapped in a leading three-backtick-json marker and a trailing
three-backtick marker it recovers exactly the fenced body, so any parser
yields the same value it would on the unfenced body. -/
theorem C10_strip_fences_fenced_and_unfenced (c : List Char) (J : Type)
    (parse : List Char → J) :
    (containsSeq fence c = false →
      strip_fences c = c ∧ parse (strip_fences c) = parse c) ∧
    ((∀ ch ∈ c, ch ≠ btick) →
      strip_fences (fenceJson ++ c ++ fence) = c ∧
      parse (strip_fences (fenceJson ++ c ++ fence)) = parse c) := by
  constructor
  · intro hnf
    have hnfj : containsSeq fenceJson c = false := by
      cases hj : containsSeq fenceJson c with
      | false => rfl
      | true =>
        rw [contains_fenceJson_imp_fence c hj] at hnf
        exact absurd hnf (by simp)
    have hid : strip_fences c = c := by
      unfold strip_fences pySplit
      rw [pySplitF_no_occurrence fenceJson c.length c hnfj]
      rw [show ([c] : List (List Char)).getLastD [] = c from by simp]
      rw [pySplitF_no_occurrence fence c.length c hnf]
      rfl
    exact ⟨hid, by rw [hid]⟩
  · intro hbt
    have hid : strip_fences (fenceJson ++ c ++ fence) = c := by
      unfold strip_fences pySplit
      rw [List.append_assoc]
      have hlen : (fenceJson ++ (c ++ fence)).length = (c.length + 9) + 1 := by
        simp [fenceJson, fence]
      rw [hlen, pySplitF_head_occurrence fenceJson (by decide) (c.length + 9)
        (c ++ fence),
        pySplitF_no_occurrence fenceJson (c.length + 9) (c ++ fence)
          (no_btick_no_fenceJson_append c hbt)]
      rw [show ([[], c ++ fence] : List (List Char)).getLastD [] = c ++ fence
        from by simp]
      rw [show (c ++ fence).length = c.length + 3 from by simp [fence],
        pySplitF_c_append_fence c hbt (c.length + 3) (le_refl _)]
      rfl
    exact ⟨hid, by rw [hid]⟩

/-- Witness for C10 on a concrete JSON body. -/
theorem C10_strip_fences_witness :
    containsSeq fence ("[1]".toList) = false ∧
    strip_fences ("[1]".toList) = "[1]".toList ∧
    strip_fences (fenceJson ++ "[1]".toList ++ fence) = "[1]".toList := by
  refine ⟨by decide, ?_, ?_⟩
  · exact ((C10_strip_fences_fenced_and_unfenced ("[1]".toList) Unit
      (fun _ => ())).1 (by decide)).1
  · exact ((C10_strip_fences_fenced_and_unfenced ("[1]".toList) Unit
      (fun _ => ())).2 (by decide)).1

/-! ### The request pipeline of `url_api.py` (`extract_and_map_tests`)

The route body is one `try` block running the stages in order; any raised
exception reaches the final handler, which re-raises
`HTTPException(500, "Error during processing: " + str(e))`.  Each external
stage is injected as an `Except`-valued collaborator carrying the message
its failure would produce; the second component of the result counts the
requests issued to the persistence service. -/

/-- The message built by the route's catch-all handler. -/
def wrapErr (m : String) : String := "Error during processing: " ++ m

/-- The persistence stage: one request is issued; a non-201 response
raises and is wrapped by the catch-all handler. -/
def routePersist (R : Type) (persist : Except String R) : Except String R × Nat :=
  match persist with
  | .error e => (.error (wrapErr e), 1)
  | .ok r => (.ok r, 1)

/-- The matching stage followed by persistence. -/
def routeMatch (R : Type) (matchResult : Except String Unit)
    (persist : Except String R) : Except String R × Nat :=
  match matchResult with
  | .error e => (.error (wrapErr e), 0)
  | .ok _ => routePersist R persist

/-- The parse step (after fence stripping) followed by the later stages. -/
def routeParse (J R : Type) (parsed : Except String J)
    (matching : J → Except String Unit) (persist : Except String R) :
    Except String R × Nat :=
  match parsed with
  | .error e => (.error (wrapErr e), 0)
  | .ok data => routeMatch R (matching data) persist

/-- The extraction-provider call followed by fence stripping, parsing and
the later stages. -/
def routeExtract (J R : Type) (extract : Except String (List Char))
    (parse : List Char → Except String J) (matching : J → Except String Unit)
    (persist : Except String R) : Except String R × Nat :=
  match extract with
  | .error e => (.error (wrapErr e), 0)
  | .ok content => routeParse J R (parse (strip_fences content)) matching persist

/-- The control flow of `extract_and_map_tests`: load the image, validate,
compress, call the extraction provider, strip fences and parse, run
matching, then post to the persistence service (counted), reporting any
failure through the catch-all handler. -/
def route (J R : Type) (load validate compress : Except String Unit)
    (extract : Except String (List Char)) (parse : List Char → Except String J)
    (matching : J → Except String Unit) (persist : Except String R) :
    Except String R × Nat :=
  match load with
  | .error e => (.error (wrapErr e), 0)
  | .ok _ =>
    match validate with
    | .error e => (.error (wrapErr e), 0)
    | .ok _ =>
      match compress with
      | .error e => (.error (wrapErr e), 0)
      | .ok _ => routeExtract J R extract parse matching persist

/-! ### Claim theorems: the pipeline -/

/-- Claim C8: when the extraction provider's content fails to parse after
fence stripping, the request ends in the error path carrying the parse
failure, and no request is ever issued to the persistence service. -/
theorem C8_parse_failure_no_persist (J R : Type) (lo va co : Except String Unit)
    (content : List Char) (parse : List Char → Except String J)
    (matching : J → Except String Unit) (persist : Except String R) (msg : String)
    (hlo : lo = .ok ()) (hva : va = .ok ()) (hco : co = .ok ())
    (hparse : parse (strip_fences content) = .error msg) :
    route J R lo va co (.ok content) parse matching persist =
      (.error (wrapErr msg), 0) := by
  subst hlo hva hco
  show routeParse J R (parse (strip_fences content)) matching persist = _
  rw [hparse]
  rfl

/-- Witness for C8 with a concrete always-failing parser. -/
theorem C8_parse_failure_no_persist_witness :
    route Unit Unit (.ok ()) (.ok ()) (.ok ()) (.ok ("not json".toList))
      (fun _ => .error "Expecting value") (fun _ => .ok ()) (.ok ()) =
      (.error (wrapErr "Expecting value"), 0) :=
  C8_parse_failure_no_persist Unit Unit _ _ _ ("not json".toList)
    (fun _ => .error "Expecting value") (fun _ => .ok ()) (.ok ())
    "Expecting value" rfl rfl rfl rfl

/-- Claim C9 is false on the code as regards stage identification: the
catch-all handler collapses every failure into
`HTTPException(500, "Error during processing: " + str(e))`, so two
different failing stages (the extraction call and the matching stage,
failing with the same underlying provider message) produce identical
error responses — the response does not identify which stage failed. -/
theorem C9_counterexample :
    route Unit Unit (.ok ()) (.ok ()) (.ok ()) (.error "Connection error.")
        (fun _ => .ok ()) (fun _ => .ok ()) (.ok ()) =
      route Unit Unit (.ok ()) (.ok ()) (.ok ()) (.ok ("null".toList))
        (fun _ => .ok ()) (fun _ => .error "Connection error.") (.ok ()) ∧
    route Unit Unit (.ok ()) (.ok ()) (.ok ()) (.error "Connection error.")
        (fun _ => .ok ()) (fun _ => .ok ()) (.ok ()) =
      (.error (wrapErr "Connection error."), 0) := by
  exact ⟨rfl, rfl⟩

/-- Claim C9 as amended: every request either succeeds fully — the result
is exactly the persistence service's acknowledged response, after one
persistence call — or fails with a structured error response of the fixed
shape `"Error during processing: " ++ cause` carrying the human-readable
cause; a failed request never yields a partially-populated success record.
(The failing stage, however, is not always identifiable from the
response.) -/
theorem C9_amended_structured_errors (J R : Type) (lo va co : Except String Unit)
    (extract : Except String (List Char)) (parse : List Char → Except String J)
    (matching : J → Except String Unit) (persist : Except String R) :
    (∃ r, route J R lo va co extract parse matching persist = (.ok r, 1) ∧
      persist = .ok r) ∨
    (∃ m, (route J R lo va co extract parse matching persist).1 =
      .error (wrapErr m)) := by
  cases lo with
  | error e => exact Or.inr ⟨e, rfl⟩
  | ok u =>
    cases va with
    | error e => exact Or.inr ⟨e, rfl⟩
    | ok u =>
      cases co with
      | error e => exact Or.inr ⟨e, rfl⟩
      | ok u =>
        cases extract with
        | error e => exact Or.inr ⟨e, rfl⟩
        | ok content =>
          have hred : route J R (.ok ()) (.ok ()) (.ok ()) (.ok content)
              parse matching persist =
              routeParse J R (parse (strip_fences content)) matching persist := rfl
          cases hp : parse (strip_fences content) with
          | error e =>
            refine Or.inr ⟨e, ?_⟩
            rw [hred, hp]
            rfl
          | ok data =>
            cases hm : matching data with
            | error e =>
              refine Or.inr ⟨e, ?_⟩
              rw [hred, hp]
              show (routeMatch R (matching data) persist).1 = _
              rw [hm]
              rfl
            | ok u =>
              cases persist with
              | error e =>
                refine Or.inr ⟨e, ?_⟩
                rw [hred, hp]
                show (routeMatch R (matching data) (.error e)).1 = _
                rw [hm]
                rfl
              | ok r =>
                refine Or.inl ⟨r, ?_, rfl⟩
                rw [hred, hp]
                show routeMatch R (matching data) (.ok r) = _
                rw [hm]
                rfl

end UrlExtractor
